import Mathlib

set_option maxHeartbeats 1600000

/-!
Verification of the Mizan measurement/normalization core.

Texts are modelled as `List Char` (Python strings are sequences of Unicode
code points, and every operation verified here acts code-point-wise).
Python `for`-loops that accumulate a value are translated to `List.foldl`,
`List.map`/`List.sum` or structural recursion; Python dictionaries that
preserve insertion order are translated to association lists.
-/

namespace Mizan

/-! ## LetterCounter (src/mizan/domain/services/letter_counter.py) -/

namespace LetterCounter

/-- The 28 base Arabic letters plus Hamza variants and Alif Maqsura,
from `LetterCounter.ARABIC_LETTERS`. -/
def ARABIC_LETTERS : List Char :=
  ['ا', 'ب', 'ت', 'ث', 'ج', 'ح', 'خ', 'د', 'ذ', 'ر', 'ز', 'س', 'ش', 'ص',
   'ض', 'ط', 'ظ', 'ع', 'غ', 'ف', 'ق', 'ك', 'ل', 'م', 'ن', 'ه', 'و', 'ي',
   'ء', 'آ', 'أ', 'ؤ', 'إ', 'ئ', 'ى']

/-- Alif Wasla (U+0671), from `LetterCounter.ALIF_WASLA`. -/
def ALIF_WASLA : Char := 'ٱ'

/-- Alif Khanjariyya / superscript Alif (U+0670), from `LetterCounter.ALIF_KHANJARIYYA`. -/
def ALIF_KHANJARIYYA : Char := 'ٰ'

/-- `LetterCounter.COUNTABLE_SPECIAL`. -/
def COUNTABLE_SPECIAL : List Char := [ALIF_WASLA, ALIF_KHANJARIYYA]

/-- The three letter-counting methods (`LetterCountMethod`). -/
inductive LetterCountMethod where
  | TRADITIONAL
  | UTHMANI_FULL
  | NO_WASLA
deriving DecidableEq, Repr

/-- `LetterCounter._get_counting_rules`: per-method default inclusion flags
for (Alif Wasla, Alif Khanjariyya), with explicit overrides applied after. -/
def getCountingRules (method : LetterCountMethod)
    (waslaOverride khanjariyyaOverride : Option Bool) : Bool × Bool :=
  let defaults : Bool × Bool :=
    match method with
    | .TRADITIONAL => (true, false)
    | .UTHMANI_FULL => (true, true)
    | .NO_WASLA => (false, false)
  let includeWasla := match waslaOverride with
    | some b => b
    | none => defaults.1
  let includeKhanjariyya := match khanjariyyaOverride with
    | some b => b
    | none => defaults.2
  (includeWasla, includeKhanjariyya)

/-- Contribution of a single character inside the `count_letters` loop
(the `if`/`elif` chain of `LetterCounter.count_letters`). -/
def charContribution (includeWasla includeKhanjariyya : Bool) (c : Char) : Nat :=
  if c ∈ ARABIC_LETTERS then 1
  else if includeWasla = true ∧ c = ALIF_WASLA then 1
  else if includeKhanjariyya = true ∧ c = ALIF_KHANJARIYYA then 1
  else 0

/-- `LetterCounter.count_letters`. -/
def count_letters (text : List Char) (method : LetterCountMethod)
    (waslaOverride khanjariyyaOverride : Option Bool) : Nat :=
  let rules := getCountingRules method waslaOverride khanjariyyaOverride
  (text.map (charContribution rules.1 rules.2)).sum

/-- Accumulator of the `count_letters_detailed` loop: mutable integers
`base`, `wasla`, `khanjariyya` of the Python code. -/
structure Tally where
  base : Nat
  wasla : Nat
  khanjariyya : Nat
deriving DecidableEq, Repr

/-- One iteration of the `count_letters_detailed` loop. -/
def detailedStep (acc : Tally) (c : Char) : Tally :=
  if c ∈ ARABIC_LETTERS then { acc with base := acc.base + 1 }
  else if c = ALIF_WASLA then { acc with wasla := acc.wasla + 1 }
  else if c = ALIF_KHANJARIYYA then { acc with khanjariyya := acc.khanjariyya + 1 }
  else acc

/-- Result dictionary of `LetterCounter.count_letters_detailed`. -/
structure DetailedCount where
  total : Nat
  base_letters : Nat
  alif_wasla : Nat
  alif_khanjariyya : Nat
  wasla_included : Bool
  khanjariyya_included : Bool
deriving DecidableEq, Repr

/-- `LetterCounter.count_letters_detailed`. -/
def count_letters_detailed (text : List Char) (method : LetterCountMethod)
    (waslaOverride khanjariyyaOverride : Option Bool) : DetailedCount :=
  let rules := getCountingRules method waslaOverride khanjariyyaOverride
  let counts := text.foldl detailedStep ⟨0, 0, 0⟩
  let total := counts.base
  let total := if rules.1 then total + counts.wasla else total
  let total := if rules.2 then total + counts.khanjariyya else total
  { total := total
    base_letters := counts.base
    alif_wasla := counts.wasla
    alif_khanjariyya := counts.khanjariyya
    wasla_included := rules.1
    khanjariyya_included := rules.2 }

/-- Variant folding of `LetterCounter._normalize_letter`: all Alif-family
glyphs to plain Alif, all Ya-family glyphs to plain Ya. -/
def normalizeLetter (c : Char) : Char :=
  if c ∈ ['آ', 'أ', 'إ', 'ا', ALIF_WASLA, ALIF_KHANJARIYYA] then 'ا'
  else if c ∈ ['ي', 'ى', 'ئ'] then 'ي'
  else c

/-- Insertion-order-preserving increment of a frequency dictionary:
`freq[letter] = freq.get(letter, 0) + 1`. -/
def bump (l : List (Char × Nat)) (k : Char) : List (Char × Nat) :=
  match l with
  | [] => [(k, 1)]
  | (a, n) :: rest => if a = k then (a, n + 1) :: rest else (a, n) :: bump rest k

/-- One iteration of the `get_letter_frequency` loop. -/
def freqStep (normalizeVariants : Bool) (freq : List (Char × Nat)) (c : Char) :
    List (Char × Nat) :=
  if c ∈ ARABIC_LETTERS ∨ c ∈ COUNTABLE_SPECIAL then
    bump freq (if normalizeVariants then normalizeLetter c else c)
  else freq

/-- `LetterCounter.get_letter_frequency`. -/
def get_letter_frequency (text : List Char) (normalizeVariants : Bool) :
    List (Char × Nat) :=
  text.foldl (freqStep normalizeVariants) []

/-- Sum of the values of a frequency dictionary. -/
def sumValues (l : List (Char × Nat)) : Nat := (l.map Prod.snd).sum

/-- Indicator of a base letter. -/
def baseInd (c : Char) : Nat := if c ∈ ARABIC_LETTERS then 1 else 0

/-- Indicator of an Alif Wasla reaching the second `elif` branch. -/
def waslaInd (c : Char) : Nat :=
  if c ∉ ARABIC_LETTERS ∧ c = ALIF_WASLA then 1 else 0

/-- Indicator of an Alif Khanjariyya reaching the third `elif` branch. -/
def khanjInd (c : Char) : Nat :=
  if c ∉ ARABIC_LETTERS ∧ c ≠ ALIF_WASLA ∧ c = ALIF_KHANJARIYYA then 1 else 0

lemma bump_sumValues (l : List (Char × Nat)) (k : Char) :
    sumValues (bump l k) = sumValues l + 1 := by
  induction l with
  | nil => simp [bump, sumValues]
  | cons p rest ih =>
    obtain ⟨a, n⟩ := p
    by_cases h : a = k <;> simp [bump, h, sumValues] at ih ⊢ <;> omega

lemma charContribution_decompose (iw ik : Bool) (c : Char) :
    charContribution iw ik c =
      baseInd c + (if iw then waslaInd c else 0) + (if ik then khanjInd c else 0) := by
  have hNe : ALIF_WASLA ≠ ALIF_KHANJARIYYA := by decide
  have hW : ALIF_WASLA ∉ ARABIC_LETTERS := by decide
  have hK : ALIF_KHANJARIYYA ∉ ARABIC_LETTERS := by decide
  unfold charContribution baseInd waslaInd khanjInd
  cases iw <;> cases ik <;> split_ifs <;> simp_all

lemma count_letters_eq_inds (t : List Char) (iw ik : Bool) :
    (t.map (charContribution iw ik)).sum =
      (t.map baseInd).sum + (if iw then (t.map waslaInd).sum else 0) +
        (if ik then (t.map khanjInd).sum else 0) := by
  induction t with
  | nil => cases iw <;> cases ik <;> simp
  | cons c t ih =>
    rw [List.map_cons, List.sum_cons, ih, charContribution_decompose]
    cases iw <;> cases ik <;> simp <;> omega

lemma foldl_detailedStep_eq (t : List Char) :
    ∀ acc : Tally,
      t.foldl detailedStep acc =
        ⟨acc.base + (t.map baseInd).sum,
         acc.wasla + (t.map waslaInd).sum,
         acc.khanjariyya + (t.map khanjInd).sum⟩ := by
  induction t with
  | nil => intro acc; simp
  | cons c t ih =>
    intro acc
    rw [List.foldl_cons, ih (detailedStep acc c)]
    unfold detailedStep baseInd waslaInd khanjInd
    split_ifs with h1 h2 h3 <;> simp_all <;> omega

/-- C10: the `total` field of `count_letters_detailed` always equals
`count_letters`, for every method and every combination of overrides. -/
theorem detailed_total_eq_count (t : List Char) (m : LetterCountMethod)
    (wOv kOv : Option Bool) :
    (count_letters_detailed t m wOv kOv).total = count_letters t m wOv kOv := by
  unfold count_letters_detailed count_letters
  rw [foldl_detailedStep_eq t ⟨0, 0, 0⟩, count_letters_eq_inds]
  rcases getCountingRules m wOv kOv with ⟨iw, ik⟩
  cases iw <;> cases ik <;> simp

/-- C7: letter counts are monotone in the special-glyph inclusion of the
method: `NO_WASLA ≤ TRADITIONAL ≤ UTHMANI_FULL`, with no overrides. -/
theorem count_letters_method_mono (t : List Char) :
    count_letters t .NO_WASLA none none ≤ count_letters t .TRADITIONAL none none ∧
    count_letters t .TRADITIONAL none none ≤ count_letters t .UTHMANI_FULL none none := by
  have h1 : count_letters t .NO_WASLA none none =
      (t.map (charContribution false false)).sum := rfl
  have h2 : count_letters t .TRADITIONAL none none =
      (t.map (charContribution true false)).sum := rfl
  have h3 : count_letters t .UTHMANI_FULL none none =
      (t.map (charContribution true true)).sum := rfl
  rw [h1, h2, h3, count_letters_eq_inds, count_letters_eq_inds, count_letters_eq_inds]
  simp

lemma charContribution_true_true (c : Char) :
    charContribution true true c =
      if c ∈ ARABIC_LETTERS ∨ c ∈ COUNTABLE_SPECIAL then 1 else 0 := by
  unfold charContribution COUNTABLE_SPECIAL
  split_ifs <;> simp_all

/-- The frequency loop adds exactly one to the value sum for every character
in `ARABIC_LETTERS ∪ COUNTABLE_SPECIAL`, which is the `count_letters`
acceptance condition with both special glyphs included. -/
lemma freq_foldl_sum (t : List Char) (nv : Bool) :
    ∀ freq : List (Char × Nat),
      sumValues (t.foldl (freqStep nv) freq) =
        sumValues freq + (t.map (charContribution true true)).sum := by
  induction t with
  | nil => intro freq; simp
  | cons c t ih =>
    intro freq
    rw [List.foldl_cons, ih, List.map_cons, List.sum_cons, charContribution_true_true]
    unfold freqStep
    by_cases h : c ∈ ARABIC_LETTERS ∨ c ∈ COUNTABLE_SPECIAL
    · rw [if_pos h, if_pos h, bump_sumValues]
      omega
    · rw [if_neg h, if_neg h]
      omega

/-- C2: for every text, the sum of the frequency buckets produced with
`normalize_variants = True` equals `count_letters` with both special glyphs
included — the inclusion settings the frequency computation uses. -/
theorem frequency_sum_eq_count (t : List Char) :
    sumValues (get_letter_frequency t true) =
      count_letters t .UTHMANI_FULL (some true) (some true) ∧
    ∀ m : LetterCountMethod,
      sumValues (get_letter_frequency t true) =
        count_letters t m (some true) (some true) := by
  have hbase := freq_foldl_sum t true []
  have hcount : ∀ m : LetterCountMethod, count_letters t m (some true) (some true) =
      (t.map (charContribution true true)).sum := by
    intro m; cases m <;> rfl
  constructor
  · rw [hcount]
    simpa [get_letter_frequency, sumValues] using hbase
  · intro m
    rw [hcount]
    simpa [get_letter_frequency, sumValues] using hbase

end LetterCounter

/-! ## ArabicNormalizer (src/mizan/infrastructure/text/normalizer.py)

`NormalizationLevel` is a Python `StrEnum`, so `level.value` is a *string*
and the `>=` comparisons in `ArabicNormalizer.normalize` are lexicographic
string comparisons.  `pyStrLt`/`pyStrGe` model Python's code-point-wise
string ordering exactly. -/

/-- The six normalization levels (`NormalizationLevel`). -/
inductive NormalizationLevel where
  | NONE
  | TASHKEEL_REMOVED
  | HAMZA_UNIFIED
  | ALIF_UNIFIED
  | YA_UNIFIED
  | FULL
deriving DecidableEq, Repr

/-- The `StrEnum` value of each level. -/
def NormalizationLevel.strValue : NormalizationLevel → String
  | .NONE => "none"
  | .TASHKEEL_REMOVED => "tashkeel_removed"
  | .HAMZA_UNIFIED => "hamza_unified"
  | .ALIF_UNIFIED => "alif_unified"
  | .YA_UNIFIED => "ya_unified"
  | .FULL => "full"

/-- Python's lexicographic `<` on strings (code-point order). -/
def pyStrLt : List Char → List Char → Bool
  | [], [] => false
  | [], _ :: _ => true
  | _ :: _, [] => false
  | a :: xs, b :: ys =>
    if a.toNat < b.toNat then true
    else if b.toNat < a.toNat then false
    else pyStrLt xs ys

/-- Python's `>=` on strings. -/
def pyStrGe (a b : String) : Bool := !(pyStrLt a.data b.data)

namespace ArabicNormalizer

/-- `ArabicNormalizer.TASHKEEL` (18 marks, including superscript Alef U+0670). -/
def TASHKEEL : List Char :=
  ['ً', 'ٌ', 'ٍ', 'َ', 'ُ', 'ِ', 'ّ',
   'ْ', 'ٓ', 'ٔ', 'ٕ', 'ٖ', 'ٗ', '٘',
   'ٜ', 'ٝ', 'ٞ', 'ٰ']

/-- `ArabicNormalizer.HAMZA_MAP` in insertion order. -/
def HAMZA_MAP : List (Char × Char) :=
  [('أ', 'ء'), ('إ', 'ء'), ('ؤ', 'ء'),
   ('ئ', 'ء'), ('آ', 'ء')]

/-- `ArabicNormalizer.ALIF_MAP` in insertion order. -/
def ALIF_MAP : List (Char × Char) :=
  [('آ', 'ا'), ('أ', 'ا'), ('إ', 'ا'),
   ('ٱ', 'ا'), ('ٰ', 'ا')]

/-- `ArabicNormalizer.YA_MAP` in insertion order. -/
def YA_MAP : List (Char × Char) :=
  [('ى', 'ي'), ('ئ', 'ي')]

/-- `ArabicNormalizer.TATWEEL`. -/
def TATWEEL : Char := 'ـ'

/-- `ArabicNormalizer.SMALL_LETTERS`. -/
def SMALL_LETTERS : List Char :=
  ['ۡ', 'ۢ', 'ۣ', 'ۤ', 'ۥ', 'ۦ', 'ۧ',
   'ۨ', '۩', '۪', '۫', '۬', 'ۭ']

/-- `ArabicNormalizer.WAQF_SIGNS`. -/
def WAQF_SIGNS : List Char :=
  ['ۖ', 'ۗ', 'ۘ', 'ۙ', 'ۚ', 'ۛ', 'ۜ',
   '۝', '۞']

/-- Single-character `str.replace`, applied to one character. -/
def repl (v r c : Char) : Char := if c = v then r else c

/-- `text.replace(variant, replacement)` for single characters. -/
def replaceAll (v r : Char) (t : List Char) : List Char := t.map (repl v r)

/-- Sequential application of a variant→replacement map in insertion order
(the `for variant, replacement in map.items()` loops). -/
def applyMap (m : List (Char × Char)) (t : List Char) : List Char :=
  m.foldl (fun acc p => replaceAll p.1 p.2 acc) t

/-- `ArabicNormalizer._remove_tashkeel`. -/
def removeTashkeel (t : List Char) : List Char :=
  t.filter fun c => decide (c ∉ TASHKEEL)

/-- `ArabicNormalizer._unify_hamza`. -/
def unifyHamza (t : List Char) : List Char := applyMap HAMZA_MAP t

/-- `ArabicNormalizer._unify_alif`. -/
def unifyAlif (t : List Char) : List Char := applyMap ALIF_MAP t

/-- `ArabicNormalizer._unify_ya`. -/
def unifyYa (t : List Char) : List Char := applyMap YA_MAP t

/-- `ArabicNormalizer._full_normalize`. -/
def fullNormalize (t : List Char) : List Char :=
  let t := t.filter fun c => decide (c ≠ TATWEEL)
  let t := t.filter fun c => decide (c ∉ SMALL_LETTERS)
  t.filter fun c => decide (c ∉ WAQF_SIGNS)

/-- `ArabicNormalizer.normalize`: the `level.value >= ...` guards are the
Python string comparisons of the `StrEnum` values. -/
def normalize (text : List Char) (level : NormalizationLevel) : List Char :=
  if level = .NONE then text
  else
    let text := if pyStrGe level.strValue NormalizationLevel.TASHKEEL_REMOVED.strValue
      then removeTashkeel text else text
    let text := if pyStrGe level.strValue NormalizationLevel.HAMZA_UNIFIED.strValue
      then unifyHamza text else text
    let text := if pyStrGe level.strValue NormalizationLevel.ALIF_UNIFIED.strValue
      then unifyAlif text else text
    let text := if pyStrGe level.strValue NormalizationLevel.YA_UNIFIED.strValue
      then unifyYa text else text
    let text := if level = .FULL then fullNormalize text else text
    text

/-- Modelled from the spec: the transformation steps of each level, where
each level's set is the union of all lower levels' sets plus one additional
step, applied in increasing level order. -/
def levelSteps : NormalizationLevel → List (List Char → List Char)
  | .NONE => []
  | .TASHKEEL_REMOVED => [removeTashkeel]
  | .HAMZA_UNIFIED => [removeTashkeel, unifyHamza]
  | .ALIF_UNIFIED => [removeTashkeel, unifyHamza, unifyAlif]
  | .YA_UNIFIED => [removeTashkeel, unifyHamza, unifyAlif, unifyYa]
  | .FULL => [removeTashkeel, unifyHamza, unifyAlif, unifyYa, fullNormalize]

/-- Modelled from the spec: cascaded normalization, applying each level's
step in increasing level order up to and including the requested level. -/
def normalizeSpecCascade (text : List Char) (level : NormalizationLevel) : List Char :=
  (levelSteps level).foldl (fun t f => f t) text

/-- C1 counterexample: at level FULL the code does not remove tashkeel (the
`StrEnum` comparison "full" >= "tashkeel_removed" is false), so `normalize`
diverges from the spec's cascade already on a single Fatha. -/
theorem normalize_ne_cascade_at_fatha :
    normalize ['َ'] .FULL = ['َ'] ∧
    normalizeSpecCascade ['َ'] .FULL = [] ∧
    normalize ['َ'] .FULL ≠ normalizeSpecCascade ['َ'] .FULL := by
  refine ⟨by decide, by decide, by decide⟩

/-! Characterization of `normalize` per level.  Because of the string-valued
`StrEnum` comparisons, the step set actually applied at each level is:
TASHKEEL_REMOVED → tashkeel+hamza+alif, HAMZA_UNIFIED → hamza+alif,
ALIF_UNIFIED → alif, YA_UNIFIED → tashkeel+hamza+alif+ya,
FULL → alif+cleanup. -/

lemma normalize_NONE (t : List Char) : normalize t .NONE = t := rfl

lemma normalize_TASHKEEL_REMOVED (t : List Char) :
    normalize t .TASHKEEL_REMOVED = unifyAlif (unifyHamza (removeTashkeel t)) := by
  have h1 : pyStrGe "tashkeel_removed" "tashkeel_removed" = true := by decide
  have h2 : pyStrGe "tashkeel_removed" "hamza_unified" = true := by decide
  have h3 : pyStrGe "tashkeel_removed" "alif_unified" = true := by decide
  have h4 : pyStrGe "tashkeel_removed" "ya_unified" = false := by decide
  simp [normalize, NormalizationLevel.strValue, h1, h2, h3, h4]

lemma normalize_HAMZA_UNIFIED (t : List Char) :
    normalize t .HAMZA_UNIFIED = unifyAlif (unifyHamza t) := by
  have h1 : pyStrGe "hamza_unified" "tashkeel_removed" = false := by decide
  have h2 : pyStrGe "hamza_unified" "hamza_unified" = true := by decide
  have h3 : pyStrGe "hamza_unified" "alif_unified" = true := by decide
  have h4 : pyStrGe "hamza_unified" "ya_unified" = false := by decide
  simp [normalize, NormalizationLevel.strValue, h1, h2, h3, h4]

lemma normalize_ALIF_UNIFIED (t : List Char) :
    normalize t .ALIF_UNIFIED = unifyAlif t := by
  have h1 : pyStrGe "alif_unified" "tashkeel_removed" = false := by decide
  have h2 : pyStrGe "alif_unified" "hamza_unified" = false := by decide
  have h3 : pyStrGe "alif_unified" "alif_unified" = true := by decide
  have h4 : pyStrGe "alif_unified" "ya_unified" = false := by decide
  simp [normalize, NormalizationLevel.strValue, h1, h2, h3, h4]

lemma normalize_YA_UNIFIED (t : List Char) :
    normalize t .YA_UNIFIED = unifyYa (unifyAlif (unifyHamza (removeTashkeel t))) := by
  have h1 : pyStrGe "ya_unified" "tashkeel_removed" = true := by decide
  have h2 : pyStrGe "ya_unified" "hamza_unified" = true := by decide
  have h3 : pyStrGe "ya_unified" "alif_unified" = true := by decide
  have h4 : pyStrGe "ya_unified" "ya_unified" = true := by decide
  simp [normalize, NormalizationLevel.strValue, h1, h2, h3, h4]

lemma normalize_FULL (t : List Char) :
    normalize t .FULL = fullNormalize (unifyAlif t) := by
  have h1 : pyStrGe "full" "tashkeel_removed" = false := by decide
  have h2 : pyStrGe "full" "hamza_unified" = false := by decide
  have h3 : pyStrGe "full" "alif_unified" = true := by decide
  have h4 : pyStrGe "full" "ya_unified" = false := by decide
  simp [normalize, NormalizationLevel.strValue, h1, h2, h3, h4]

/-- Sequential application of a variant→replacement map to one character. -/
def charOfMap (m : List (Char × Char)) (c : Char) : Char :=
  m.foldl (fun x p => repl p.1 p.2 x) c

/-- Pointwise form of `unifyHamza` (the five sequential replaces composed). -/
def hamzaChar (c : Char) : Char := charOfMap HAMZA_MAP c

/-- Pointwise form of `unifyAlif`. -/
def alifChar (c : Char) : Char := charOfMap ALIF_MAP c

/-- Pointwise form of `unifyYa`. -/
def yaChar (c : Char) : Char := charOfMap YA_MAP c

lemma applyMap_nil (m : List (Char × Char)) : applyMap m [] = [] := by
  induction m with
  | nil => rfl
  | cons p m ih =>
    have h : applyMap (p :: m) ([] : List Char) = applyMap m [] := rfl
    rw [h, ih]

lemma applyMap_cons (m : List (Char × Char)) (c : Char) (t : List Char) :
    applyMap m (c :: t) = charOfMap m c :: applyMap m t := by
  induction m generalizing c t with
  | nil => rfl
  | cons p m ih =>
    have h : applyMap (p :: m) (c :: t) =
        applyMap m (repl p.1 p.2 c :: replaceAll p.1 p.2 t) := rfl
    rw [h, ih]
    rfl

lemma applyMap_eq_map (m : List (Char × Char)) (t : List Char) :
    applyMap m t = t.map (charOfMap m) := by
  induction t with
  | nil => exact applyMap_nil _
  | cons c t ih =>
    rw [List.map_cons, ← ih]
    exact applyMap_cons _ c t

lemma unifyHamza_eq_map (t : List Char) : unifyHamza t = t.map hamzaChar :=
  applyMap_eq_map HAMZA_MAP t

lemma unifyAlif_eq_map (t : List Char) : unifyAlif t = t.map alifChar :=
  applyMap_eq_map ALIF_MAP t

lemma unifyYa_eq_map (t : List Char) : unifyYa t = t.map yaChar :=
  applyMap_eq_map YA_MAP t

lemma hamzaChar_or (c : Char) : hamzaChar c = 'ء' ∨ hamzaChar c = c := by
  unfold hamzaChar charOfMap HAMZA_MAP
  simp only [List.foldl_cons, List.foldl_nil]
  unfold repl
  split_ifs <;> simp

lemma alifChar_or (c : Char) : alifChar c = 'ا' ∨ alifChar c = c := by
  unfold alifChar charOfMap ALIF_MAP
  simp only [List.foldl_cons, List.foldl_nil]
  unfold repl
  split_ifs <;> simp

lemma yaChar_or (c : Char) : yaChar c = 'ي' ∨ yaChar c = c := by
  unfold yaChar charOfMap YA_MAP
  simp only [List.foldl_cons, List.foldl_nil]
  unfold repl
  split_ifs <;> simp

/-- Pointwise idempotence of the hamza-then-alif pipeline. -/
lemma alif_hamza_idem (c : Char) :
    alifChar (hamzaChar (alifChar (hamzaChar c))) = alifChar (hamzaChar c) := by
  rcases hamzaChar_or c with h | h
  · rw [h]
    have h1 : alifChar 'ء' = 'ء' := by decide
    have h2 : hamzaChar 'ء' = 'ء' := by decide
    rw [h1, h2, h1]
  · rw [h]
    rcases alifChar_or c with h2 | h2
    · rw [h2]
      have h3 : hamzaChar 'ا' = 'ا' := by decide
      have h4 : alifChar 'ا' = 'ا' := by decide
      rw [h3, h4]
    · rw [h2, h, h2]

/-- Pointwise idempotence of the alif-only pipeline. -/
lemma alif_idem (c : Char) : alifChar (alifChar c) = alifChar c := by
  rcases alifChar_or c with h | h
  · rw [h]; decide
  · rw [h]; exact h

/-- Pointwise idempotence of the hamza-alif-ya pipeline. -/
lemma ya_alif_hamza_idem (c : Char) :
    yaChar (alifChar (hamzaChar (yaChar (alifChar (hamzaChar c))))) =
      yaChar (alifChar (hamzaChar c)) := by
  rcases hamzaChar_or c with h | h
  · rw [h]
    have h1 : alifChar 'ء' = 'ء' := by decide
    have h2 : yaChar 'ء' = 'ء' := by decide
    have h3 : hamzaChar 'ء' = 'ء' := by decide
    rw [h1, h2, h3, h1, h2]
  · rw [h]
    rcases alifChar_or c with h2 | h2
    · rw [h2]
      have h3 : yaChar 'ا' = 'ا' := by decide
      have h4 : hamzaChar 'ا' = 'ا' := by decide
      have h5 : alifChar 'ا' = 'ا' := by decide
      rw [h3, h4, h5, h3]
    · rw [h2]
      rcases yaChar_or c with h3 | h3
      · rw [h3]
        have h4 : hamzaChar 'ي' = 'ي' := by decide
        have h5 : alifChar 'ي' = 'ي' := by decide
        have h6 : yaChar 'ي' = 'ي' := by decide
        rw [h4, h5, h6]
      · have hd : yaChar (alifChar (hamzaChar c)) = c := by rw [h, h2, h3]
        rw [h3]
        exact hd

/-- A map that fixes every element of a list leaves it unchanged. -/
lemma map_eq_self_of_fix {f : Char → Char} {l : List Char}
    (h : ∀ x ∈ l, f x = x) : l.map f = l := by
  induction l with
  | nil => rfl
  | cons c l ih =>
    rw [List.map_cons, h c (List.mem_cons_self c l), ih fun x hx => h x (List.mem_cons_of_mem c hx)]

lemma filter_eq_self_of_all {p : Char → Bool} {l : List Char}
    (h : ∀ x ∈ l, p x = true) : l.filter p = l :=
  List.filter_eq_self.mpr h

/-- Characters produced by the hamza/alif/ya pointwise maps are never
tashkeel marks, provided the input was not one. -/
lemma hamzaChar_notTashkeel {c : Char} (h : c ∉ TASHKEEL) : hamzaChar c ∉ TASHKEEL := by
  rcases hamzaChar_or c with h2 | h2 <;> rw [h2]
  · decide
  · exact h

lemma alifChar_notTashkeel {c : Char} (h : c ∉ TASHKEEL) : alifChar c ∉ TASHKEEL := by
  rcases alifChar_or c with h2 | h2 <;> rw [h2]
  · decide
  · exact h

lemma yaChar_notTashkeel {c : Char} (h : c ∉ TASHKEEL) : yaChar c ∉ TASHKEEL := by
  rcases yaChar_or c with h2 | h2 <;> rw [h2]
  · decide
  · exact h

lemma removeTashkeel_idem (t : List Char) :
    removeTashkeel (removeTashkeel t) = removeTashkeel t := by
  apply filter_eq_self_of_all
  intro x hx
  simp only [removeTashkeel, List.mem_filter] at hx
  exact hx.2

/-- After removing tashkeel, hamza- then alif-unification leaves a
tashkeel-free text, so a second tashkeel removal is the identity. -/
lemma removeTashkeel_map2 (t : List Char) :
    removeTashkeel (((removeTashkeel t).map hamzaChar).map alifChar) =
      ((removeTashkeel t).map hamzaChar).map alifChar := by
  apply filter_eq_self_of_all
  intro x hx
  rw [List.mem_map] at hx
  obtain ⟨y, hy, rfl⟩ := hx
  rw [List.mem_map] at hy
  obtain ⟨c, hc, rfl⟩ := hy
  simp only [removeTashkeel, List.mem_filter, decide_eq_true_eq] at hc
  exact decide_eq_true (alifChar_notTashkeel (hamzaChar_notTashkeel hc.2))

/-- As `removeTashkeel_map2`, with the ya-unification step appended. -/
lemma removeTashkeel_map3 (t : List Char) :
    removeTashkeel ((((removeTashkeel t).map hamzaChar).map alifChar).map yaChar) =
      (((removeTashkeel t).map hamzaChar).map alifChar).map yaChar := by
  apply filter_eq_self_of_all
  intro x hx
  rw [List.mem_map] at hx
  obtain ⟨z, hz, rfl⟩ := hx
  rw [List.mem_map] at hz
  obtain ⟨y, hy, rfl⟩ := hz
  rw [List.mem_map] at hy
  obtain ⟨c, hc, rfl⟩ := hy
  simp only [removeTashkeel, List.mem_filter, decide_eq_true_eq] at hc
  exact decide_eq_true
    (yaChar_notTashkeel (alifChar_notTashkeel (hamzaChar_notTashkeel hc.2)))

/-- Re-applying hamza- then alif-unification to an already unified text
changes nothing. -/
lemma map_alif_hamza_idem (l : List Char) :
    (((l.map hamzaChar).map alifChar).map hamzaChar).map alifChar =
      (l.map hamzaChar).map alifChar := by
  induction l with
  | nil => rfl
  | cons c l ih =>
    simp only [List.map_cons] at ih ⊢
    rw [alif_hamza_idem c, ih]

/-- Re-applying hamza-, alif- then ya-unification to an already unified
text changes nothing. -/
lemma map_ya_alif_hamza_idem (l : List Char) :
    ((((((l.map hamzaChar).map alifChar).map yaChar).map hamzaChar).map alifChar).map yaChar) =
      ((l.map hamzaChar).map alifChar).map yaChar := by
  induction l with
  | nil => rfl
  | cons c l ih =>
    simp only [List.map_cons] at ih ⊢
    rw [ya_alif_hamza_idem c, ih]

/-- Re-applying alif-unification alone changes nothing. -/
lemma map_alif_idem (l : List Char) :
    (l.map alifChar).map alifChar = l.map alifChar := by
  induction l with
  | nil => rfl
  | cons c l ih =>
    simp only [List.map_cons] at ih ⊢
    rw [alif_idem c, ih]

/-- C3: `normalize` is idempotent at every level (on the levels' actual
transformation sets as implemented). -/
theorem normalize_idempotent (t : List Char) (L : NormalizationLevel) :
    normalize (normalize t L) L = normalize t L := by
  cases L
  case NONE => rfl
  case TASHKEEL_REMOVED =>
    rw [normalize_TASHKEEL_REMOVED, normalize_TASHKEEL_REMOVED]
    simp only [unifyHamza_eq_map, unifyAlif_eq_map]
    rw [removeTashkeel_map2 t]
    exact map_alif_hamza_idem (removeTashkeel t)
  case HAMZA_UNIFIED =>
    rw [normalize_HAMZA_UNIFIED, normalize_HAMZA_UNIFIED]
    simp only [unifyHamza_eq_map, unifyAlif_eq_map]
    exact map_alif_hamza_idem t
  case ALIF_UNIFIED =>
    rw [normalize_ALIF_UNIFIED, normalize_ALIF_UNIFIED,
      unifyAlif_eq_map, unifyAlif_eq_map]
    exact map_alif_idem t
  case YA_UNIFIED =>
    rw [normalize_YA_UNIFIED, normalize_YA_UNIFIED]
    simp only [unifyHamza_eq_map, unifyAlif_eq_map, unifyYa_eq_map]
    rw [removeTashkeel_map3 t]
    exact map_ya_alif_hamza_idem (removeTashkeel t)
  case FULL =>
    rw [normalize_FULL, normalize_FULL]
    rw [unifyAlif_eq_map, unifyAlif_eq_map]
    have halif : (fullNormalize ((t.map alifChar))).map alifChar =
        fullNormalize (t.map alifChar) := by
      apply map_eq_self_of_fix
      intro x hx
      have hx2 : x ∈ t.map alifChar := by
        simp only [fullNormalize, List.mem_filter] at hx
        exact hx.1.1.1
      rw [List.mem_map] at hx2
      obtain ⟨c, _, rfl⟩ := hx2
      exact alif_idem c
    rw [halif]
    simp only [fullNormalize, List.filter_filter]
    apply List.filter_congr
    intro a _
    cases h1 : decide (a ≠ TATWEEL) <;>
      cases h2 : decide (a ∉ SMALL_LETTERS) <;>
      cases h3 : decide (a ∉ WAQF_SIGNS) <;>
      simp [h1, h2, h3]

end ArabicNormalizer

/-! ## AbjadValue (src/mizan/domain/value_objects/abjad_value.py) -/

/-- The two Abjad numeral systems (`AbjadSystem`). -/
inductive AbjadSystem where
  | MASHRIQI
  | MAGHRIBI
deriving DecidableEq, Repr

/-- The `AbjadValue` frozen dataclass. -/
structure AbjadValue where
  system : AbjadSystem
  value : Int
  letter_breakdown : List (Char × Int)
deriving DecidableEq, Repr

/-- `AbjadValue.__post_init__` as a validating constructor: Python raises
`ValueError` where this returns `.error`. -/
def mkAbjadValue (system : AbjadSystem) (value : Int)
    (letter_breakdown : List (Char × Int)) : Except String AbjadValue :=
  if value < 0 then
    .error "Abjad value cannot be negative"
  else if (letter_breakdown.map Prod.snd).sum ≠ value then
    .error "Letter breakdown sum does not match value"
  else
    .ok ⟨system, value, letter_breakdown⟩

/-- C4: an `AbjadValue` whose breakdown does not sum to the declared total
is rejected at construction, and a successfully constructed value keeps its
declared total and breakdown unchanged (no silent auto-correction). -/
theorem abjad_breakdown_invariant (s : AbjadSystem) (v : Int)
    (bd : List (Char × Int)) :
    ((bd.map Prod.snd).sum ≠ v → ∃ e, mkAbjadValue s v bd = .error e) ∧
    (∀ a : AbjadValue, mkAbjadValue s v bd = .ok a →
      a.value = v ∧ a.letter_breakdown = bd ∧ (bd.map Prod.snd).sum = v) := by
  unfold mkAbjadValue
  constructor
  · intro hne
    split_ifs with h1
    · exact ⟨_, rfl⟩
    · exact ⟨_, rfl⟩
  · intro a ha
    split_ifs at ha with h1 h2
    rw [Except.ok.injEq] at ha
    subst ha
    exact ⟨rfl, rfl, not_not.mp h2⟩

/-- Witness for C4 at a concrete inconsistent breakdown. -/
theorem abjad_breakdown_invariant_witness :
    ∃ e, mkAbjadValue .MASHRIQI 5 [('ب', 2)] = .error e :=
  (abjad_breakdown_invariant .MASHRIQI 5 [('ب', 2)]).1 (by decide)

/-! ## VerseLocation (src/mizan/domain/value_objects/verse_location.py) -/

namespace VerseLoc

def MIN_SURAH : Int := 1

def MAX_SURAH : Int := 114

def MIN_VERSE : Int := 1

/-- `MAX_VERSES_PER_SURAH`: the fixed per-surah verse-count table. -/
def MAX_VERSES_PER_SURAH : List (Int × Int) :=
  [(1, 7), (2, 286), (3, 200), (4, 176), (5, 120), (6, 165),
   (7, 206), (8, 75), (9, 129), (10, 109), (11, 123), (12, 111),
   (13, 43), (14, 52), (15, 99), (16, 128), (17, 111), (18, 110),
   (19, 98), (20, 135), (21, 112), (22, 78), (23, 118), (24, 64),
   (25, 77), (26, 227), (27, 93), (28, 88), (29, 69), (30, 60),
   (31, 34), (32, 30), (33, 73), (34, 54), (35, 45), (36, 83),
   (37, 182), (38, 88), (39, 75), (40, 85), (41, 54), (42, 53),
   (43, 89), (44, 59), (45, 37), (46, 35), (47, 38), (48, 29),
   (49, 18), (50, 45), (51, 60), (52, 49), (53, 62), (54, 55),
   (55, 78), (56, 96), (57, 29), (58, 22), (59, 24), (60, 13),
   (61, 14), (62, 11), (63, 11), (64, 18), (65, 12), (66, 12),
   (67, 30), (68, 52), (69, 52), (70, 44), (71, 28), (72, 28),
   (73, 20), (74, 56), (75, 40), (76, 31), (77, 50), (78, 40),
   (79, 46), (80, 42), (81, 29), (82, 19), (83, 36), (84, 25),
   (85, 22), (86, 17), (87, 19), (88, 26), (89, 30), (90, 20),
   (91, 15), (92, 21), (93, 11), (94, 8), (95, 8), (96, 19),
   (97, 5), (98, 8), (99, 8), (100, 11), (101, 11), (102, 8),
   (103, 3), (104, 9), (105, 5), (106, 4), (107, 7), (108, 3),
   (109, 6), (110, 3), (111, 5), (112, 4), (113, 5), (114, 6)]

/-- Python `dict.get(key)` on the integer-keyed table. -/
def dictGet (l : List (Int × Int)) (k : Int) : Option Int :=
  (l.find? fun p => p.1 == k).map Prod.snd

/-- Python `dict.get(key, default)`. -/
def dictGetD (l : List (Int × Int)) (k d : Int) : Int :=
  match dictGet l k with
  | some v => v
  | none => d

/-- The `VerseLocation` frozen dataclass. -/
structure VerseLocation where
  surah_number : Int
  verse_number : Int
deriving DecidableEq, Repr

/-- `VerseLocation.__post_init__` as a validating constructor. -/
def mkVerseLocation (surah verse : Int) : Except String VerseLocation :=
  if ¬ (MIN_SURAH ≤ surah ∧ surah ≤ MAX_SURAH) then
    .error "Invalid surah number"
  else if verse < MIN_VERSE then
    .error "Invalid verse number"
  else
    match dictGet MAX_VERSES_PER_SURAH surah with
    | some maxVerses =>
      if verse > maxVerses then .error "Invalid verse number for surah"
      else .ok ⟨surah, verse⟩
    | none => .ok ⟨surah, verse⟩

/-- `VerseLocation.is_last_verse`. -/
def is_last_verse (loc : VerseLocation) : Bool :=
  loc.verse_number == dictGetD MAX_VERSES_PER_SURAH loc.surah_number 0

/-- C5: constructing a `VerseLocation` with a surah outside [1,114], a verse
below 1, or a verse above the fixed per-surah maximum fails; in particular
(1, 8) fails while (1, 7) succeeds and is the last verse of surah 1. -/
theorem verse_location_validation :
    (∀ s v : Int, ¬ (1 ≤ s ∧ s ≤ 114) → ∃ e, mkVerseLocation s v = .error e) ∧
    (∀ s v : Int, v < 1 → ∃ e, mkVerseLocation s v = .error e) ∧
    (∀ s v mx : Int, dictGet MAX_VERSES_PER_SURAH s = some mx → v > mx →
      ∃ e, mkVerseLocation s v = .error e) ∧
    (∃ e, mkVerseLocation 1 8 = .error e) ∧
    (∃ loc, mkVerseLocation 1 7 = .ok loc ∧ is_last_verse loc = true) := by
  refine ⟨?_, ?_, ?_, ?_, ?_⟩
  · intro s v hs
    unfold mkVerseLocation
    rw [if_pos]
    · exact ⟨_, rfl⟩
    · exact fun h => hs h
  · intro s v hv
    unfold mkVerseLocation
    by_cases hs : ¬ (MIN_SURAH ≤ s ∧ s ≤ MAX_SURAH)
    · rw [if_pos hs]
      exact ⟨_, rfl⟩
    · rw [if_neg hs]
      exact ⟨_, if_pos hv⟩
  · intro s v mx hmx hv
    unfold mkVerseLocation
    by_cases hs : ¬ (MIN_SURAH ≤ s ∧ s ≤ MAX_SURAH)
    · rw [if_pos hs]
      exact ⟨_, rfl⟩
    · rw [if_neg hs]
      by_cases hv1 : v < MIN_VERSE
      · rw [if_pos hv1]
        exact ⟨_, rfl⟩
      · rw [if_neg hv1, hmx]
        exact ⟨_, if_pos hv⟩
  · exact ⟨"Invalid verse number for surah", rfl⟩
  · exact ⟨⟨1, 7⟩, rfl, rfl⟩

/-- Witness for C5's universally quantified rejection clauses at concrete
out-of-range inputs. -/
theorem verse_location_validation_witness :
    (∃ e, mkVerseLocation 0 1 = .error e) ∧
    (∃ e, mkVerseLocation 115 1 = .error e) ∧
    (∃ e, mkVerseLocation 5 0 = .error e) ∧
    (∃ e, mkVerseLocation 2 287 = .error e) :=
  ⟨verse_location_validation.1 0 1 (by decide),
   verse_location_validation.1 115 1 (by decide),
   verse_location_validation.2.1 5 0 (by decide),
   verse_location_validation.2.2.1 2 287 286 (by decide) (by decide)⟩

end VerseLoc

/-! ## IntegrityGuard (src/mizan/infrastructure/integrity/guard.py)

The cryptographic digest (`hashlib`) is an external primitive; it is
abstracted as a function argument `computeHash : algorithm → text → digest`.
`TextChecksum.matches` compares algorithm tags and then the digest strings
(`hmac.compare_digest` is string equality, computed in constant time). -/

namespace Integrity

/-- The `TextChecksum` value object (algorithm tag + hex digest). -/
structure TextChecksum where
  algorithm : String
  value : String
deriving DecidableEq, Repr

/-- `TextChecksum.matches`: `False` on algorithm mismatch, else digest
equality. -/
def checksumMatches (a b : TextChecksum) : Bool :=
  if a.algorithm ≠ b.algorithm then false
  else a.value == b.value

/-- Outcome of `IntegrityGuard.verify_text`: a returned boolean, or a raised
`IntegrityViolationError` carrying expected, actual and context. -/
inductive VerifyOutcome where
  | ok (result : Bool)
  | violation (expected actual : TextChecksum) (context : String)
deriving DecidableEq, Repr

/-- `IntegrityGuard.verify_text`: computes the actual checksum with the
expected checksum's algorithm, then raises (fail-fast) or returns `false`
(report mode) on mismatch, and returns `true` on match. -/
def verify_text (computeHash : String → String → String) (failFast : Bool)
    (text : String) (expectedChecksum : TextChecksum) (context : String) :
    VerifyOutcome :=
  let actualChecksum : TextChecksum :=
    ⟨expectedChecksum.algorithm, computeHash expectedChecksum.algorithm text⟩
  if ¬ checksumMatches expectedChecksum actualChecksum then
    if failFast then .violation expectedChecksum actualChecksum context
    else .ok false
  else .ok true

/-- C6: `verify_text` raises exactly when the computed checksum differs from
the expected one and the guard is fail-fast; on a mismatch in report mode it
returns `false`; and on a match it returns `true` in either mode. -/
theorem verify_text_policy (computeHash : String → String → String)
    (failFast : Bool) (text : String) (expected : TextChecksum)
    (context : String) :
    ((∃ exp act c, verify_text computeHash failFast text expected context =
        .violation exp act c) ↔
      (computeHash expected.algorithm text ≠ expected.value ∧ failFast = true)) ∧
    (verify_text computeHash failFast text expected context = .ok false ↔
      (computeHash expected.algorithm text ≠ expected.value ∧ failFast = false)) ∧
    (verify_text computeHash failFast text expected context = .ok true ↔
      computeHash expected.algorithm text = expected.value) := by
  have hmatch : checksumMatches expected
      ⟨expected.algorithm, computeHash expected.algorithm text⟩ =
      (expected.value == computeHash expected.algorithm text) := by
    unfold checksumMatches
    rw [if_neg (by simp)]
  unfold verify_text
  simp only [hmatch]
  by_cases hv : expected.value = computeHash expected.algorithm text
  · rw [if_neg (by simp [hv])]
    simp [hv]
  · rw [if_pos (by simp [hv])]
    cases failFast <;> simp_all <;> exact fun h => hv h.symm

end Integrity

/-! ## Digital root (src/mizan/domain/services/abjad_calculator.py and
src/mizan/domain/value_objects/abjad_value.py) -/

namespace AbjadCalculator

/-- `AbjadCalculator.digital_root`: the closed form `1 + (n - 1) % 9` for
nonzero values and `0` for zero. -/
def digital_root (value : Int) : Int :=
  if value = 0 then 0 else 1 + (value - 1) % 9

end AbjadCalculator

/-- `AbjadValue.digital_root` (same closed form, on the stored value). -/
def AbjadValue.digital_root (a : AbjadValue) : Int :=
  if a.value = 0 then 0 else 1 + (a.value - 1) % 9

/-- Modelled from the spec: "repeated digit sum": the sum of the decimal
digits of `n`. -/
def sumDigits (n : Nat) : Nat := (Nat.digits 10 n).sum

lemma sumDigits_le (n : Nat) : sumDigits n ≤ n := by
  induction n using Nat.strong_induction_on with
  | _ n ih =>
    match n with
    | 0 => simp [sumDigits]
    | (m + 1) =>
      rw [sumDigits, Nat.digits_def' (b := 10) (by norm_num) (Nat.succ_pos m)]
      rw [List.sum_cons]
      have hdiv : (m + 1) / 10 < m + 1 := Nat.div_lt_self (Nat.succ_pos m) (by norm_num)
      have hle := ih ((m + 1) / 10) hdiv
      unfold sumDigits at hle
      simp only [Nat.succ_eq_add_one]
      omega

lemma sumDigits_lt (n : Nat) (h : 10 ≤ n) : sumDigits n < n := by
  match n, h with
  | (m + 1), h =>
    rw [sumDigits, Nat.digits_def' (b := 10) (by norm_num) (Nat.succ_pos m)]
    rw [List.sum_cons]
    have hle := sumDigits_le ((m + 1) / 10)
    unfold sumDigits at hle
    simp only [Nat.succ_eq_add_one]
    omega

lemma sumDigits_pos (n : Nat) (h : 0 < n) : 0 < sumDigits n := by
  induction n using Nat.strong_induction_on with
  | _ n ih =>
    match n, h with
    | (m + 1), _ =>
      rw [sumDigits, Nat.digits_def' (b := 10) (by norm_num) (Nat.succ_pos m)]
      rw [List.sum_cons]
      by_cases hm : (m + 1) % 10 = 0
      · have hdiv : (m + 1) / 10 < m + 1 := Nat.div_lt_self (Nat.succ_pos m) (by norm_num)
        have hdpos : 0 < (m + 1) / 10 := by omega
        have := ih ((m + 1) / 10) hdiv hdpos
        unfold sumDigits at this
        simp only [Nat.succ_eq_add_one]
        omega
      · simp only [Nat.succ_eq_add_one]
        omega

lemma sumDigits_mod9 (n : Nat) : n % 9 = sumDigits n % 9 :=
  Nat.modEq_digits_sum 9 10 (by norm_num) n

/-- Modelled from the spec: iteratively sum the decimal digits of `n` until
a single digit remains. -/
def digitalRootIter (n : Nat) : Nat :=
  if n < 10 then n
  else digitalRootIter (sumDigits n)
termination_by n
decreasing_by
  exact sumDigits_lt n (Nat.le_of_not_lt (by assumption))

lemma digitalRootIter_closed (n : Nat) :
    digitalRootIter n = if n = 0 then 0 else 1 + (n - 1) % 9 := by
  induction n using Nat.strong_induction_on with
  | _ n ih =>
    by_cases h : n < 10
    · rw [digitalRootIter, if_pos h]
      split_ifs <;> omega
    · rw [digitalRootIter, if_neg h]
      rw [ih (sumDigits n) (sumDigits_lt n (Nat.le_of_not_lt h))]
      have hpos : 0 < n := by omega
      have hspos : 0 < sumDigits n := sumDigits_pos n hpos
      have hmod := sumDigits_mod9 n
      rw [if_neg (by omega), if_neg (by omega)]
      omega

/-- C8: for every `n ≥ 0`, the closed-form digital root of the code equals
the result of iteratively summing decimal digits until a single digit
remains, both for `AbjadCalculator.digital_root` and for
`AbjadValue.digital_root`. -/
theorem digital_root_eq_iter (n : Nat) :
    AbjadCalculator.digital_root (n : Int) = (digitalRootIter n : Int) ∧
    ∀ (s : AbjadSystem) (bd : List (Char × Int)),
      AbjadValue.digital_root ⟨s, (n : Int), bd⟩ = (digitalRootIter n : Int) := by
  have hmain : AbjadCalculator.digital_root (n : Int) = (digitalRootIter n : Int) := by
    rw [digitalRootIter_closed]
    unfold AbjadCalculator.digital_root
    split_ifs with h1 h2 h3 <;> push_cast <;> omega
  exact ⟨hmain, fun s bd => hmain⟩

/-! ## EntityVariantMatcher (src/mizan/infrastructure/text/entity_matcher.py)

`extract_prefix` iterates over `sorted(ALL_PREFIXES, key=len, reverse=True)`.
Python's `sorted` is stable, but the underlying `frozenset` iteration order
(the tie order among equal-length prefixes) is unspecified;
`ALL_CLITICS_SORTED` fixes the source-literal order within each length
class.  `allClitics_perm_sorted` and `allClitics_sorted_by_length` record
that this is an admissible output of that `sorted` call. -/

namespace EntityMatcher

/-- `EntityVariantMatcher.MATCHABLE_PREFIXES` (literal order). -/
def MATCHABLE_CLITICS : List (List Char) :=
  [['ب', 'ِ'],
   ['ب', 'ـ'],
   ['ب'],
   ['و', 'َ'],
   ['و', 'ـ'],
   ['و'],
   ['ف', 'َ'],
   ['ف', 'ـ'],
   ['ف'],
   ['ل', 'ِ'],
   ['ل', 'ـ'],
   ['ل'],
   ['ك', 'َ'],
   ['ك', 'ـ'],
   ['ك'],
   ['أ', 'َ'],
   ['أ'],
   ['ي', 'َ', 'ا'],
   ['ي', 'ا']]

/-- `EntityVariantMatcher.COMBINED_PREFIXES` (literal order). -/
def COMBINED_CLITICS : List (List Char) :=
  [['و', 'َ', 'ب', 'ِ'],
   ['و', 'ب'],
   ['ف', 'َ', 'ب', 'ِ'],
   ['ف', 'ب'],
   ['و', 'َ', 'ل', 'ِ'],
   ['و', 'ل'],
   ['ف', 'َ', 'ل', 'ِ'],
   ['ف', 'ل'],
   ['و', 'َ', 'ك', 'َ'],
   ['و', 'ك'],
   ['ف', 'َ', 'ك', 'َ'],
   ['ف', 'ك'],
   ['أ', 'َ', 'ب', 'ِ'],
   ['أ', 'ب'],
   ['أ', 'َ', 'ف', 'َ'],
   ['أ', 'ف'],
   ['أ', 'َ', 'و', 'َ'],
   ['أ', 'و']]

/-- `EntityVariantMatcher.ALL_PREFIXES = MATCHABLE_PREFIXES | COMBINED_PREFIXES`. -/
def ALL_CLITICS : List (List Char) := MATCHABLE_CLITICS ++ COMBINED_CLITICS

/-- The definite-article prefix list of `_generate_all_forms`. -/
def AL_CLITICS : List (List Char) :=
  [['ل', 'ِ', 'ل'],
   ['ل', 'ل'],
   ['ب', 'ِ', 'ا', 'ل'],
   ['ب', 'ا', 'ل'],
   ['و', 'َ', 'ا', 'ل'],
   ['و', 'ا', 'ل'],
   ['ف', 'َ', 'ا', 'ل'],
   ['ف', 'ا', 'ل'],
   ['ك', 'َ', 'ا', 'ل'],
   ['ك', 'ا', 'ل']]

/-- The matcher's `_strip_tashkeel` mark set (12 marks). -/
def TASHKEEL_M : List Char :=
  ['ً', 'ٌ', 'ٍ', 'َ', 'ُ', 'ِ',
   'ّ', 'ْ', 'ٓ', 'ٔ', 'ٕ', 'ٰ']

/-- `EntityVariantMatcher._strip_tashkeel`. -/
def stripTashkeel (t : List Char) : List Char :=
  t.filter fun c => decide (c ∉ TASHKEEL_M)

/-- `sorted(ALL_PREFIXES, key=len, reverse=True)`: length-descending, ties
in source-literal order. -/
def ALL_CLITICS_SORTED : List (List Char) :=
  [['و', 'َ', 'ب', 'ِ'],
   ['ف', 'َ', 'ب', 'ِ'],
   ['و', 'َ', 'ل', 'ِ'],
   ['ف', 'َ', 'ل', 'ِ'],
   ['و', 'َ', 'ك', 'َ'],
   ['ف', 'َ', 'ك', 'َ'],
   ['أ', 'َ', 'ب', 'ِ'],
   ['أ', 'َ', 'ف', 'َ'],
   ['أ', 'َ', 'و', 'َ'],
   ['ي', 'َ', 'ا'],
   ['ب', 'ِ'],
   ['ب', 'ـ'],
   ['و', 'َ'],
   ['و', 'ـ'],
   ['ف', 'َ'],
   ['ف', 'ـ'],
   ['ل', 'ِ'],
   ['ل', 'ـ'],
   ['ك', 'َ'],
   ['ك', 'ـ'],
   ['أ', 'َ'],
   ['ي', 'ا'],
   ['و', 'ب'],
   ['ف', 'ب'],
   ['و', 'ل'],
   ['ف', 'ل'],
   ['و', 'ك'],
   ['ف', 'ك'],
   ['أ', 'ب'],
   ['أ', 'ف'],
   ['أ', 'و'],
   ['ب'],
   ['و'],
   ['ف'],
   ['ل'],
   ['ك'],
   ['أ']]

/-- `ALL_CLITICS_SORTED` contains exactly the elements of `ALL_PREFIXES`. -/
lemma allClitics_perm_sorted : ALL_CLITICS_SORTED.Perm ALL_CLITICS := by decide

/-- `ALL_CLITICS_SORTED` is sorted by length, descending. -/
lemma allClitics_sorted_by_length :
    ALL_CLITICS_SORTED.Pairwise (fun a b => b.length ≤ a.length) := by decide

/-- `EntityVariantMatcher._generate_all_forms` as a list (set semantics are
only ever used through membership). -/
def allForms (base : List Char) : List (List Char) :=
  [base] ++
  (MATCHABLE_CLITICS.flatMap fun p => [stripTashkeel p ++ base, p ++ base]) ++
  (COMBINED_CLITICS.flatMap fun p => [stripTashkeel p ++ base, p ++ base]) ++
  (if (['ا', 'ل'].isPrefixOf base || ['ٱ', 'ل'].isPrefixOf base) then
    AL_CLITICS.flatMap fun p =>
      [stripTashkeel p ++ base.drop 2, p ++ base.drop 2]
  else [])

/-- `EntityVariantMatcher.matches`. -/
def matchesWord (base w : List Char) : Bool :=
  decide (w ∈ allForms base) ||
    decide (stripTashkeel w ∈ (allForms base).map stripTashkeel)

/-- One iteration of the `extract_prefix` loop body for candidate prefix
`q`. -/
def tryOne (base w q : List Char) : Option (List Char × List Char) :=
  let clean := stripTashkeel q
  if q.isPrefixOf w || clean.isPrefixOf w then
    let actual := if q.isPrefixOf w then q else clean
    let remainder := w.drop actual.length
    if stripTashkeel remainder = stripTashkeel base then some (actual, remainder)
    else none
  else none

/-- The `for prefix in sorted(...)` loop of `extract_prefix`. -/
def extractLoop (base w : List Char) : List (List Char) → Option (List Char × List Char)
  | [] => none
  | q :: rest =>
    match tryOne base w q with
    | some pr => some pr
    | none => extractLoop base w rest

/-- `EntityVariantMatcher.extract_prefix`. -/
def extract_clitic (base w : List Char) : Option (List Char × List Char) :=
  if matchesWord base w = false then none
  else
    match extractLoop base w ALL_CLITICS_SORTED with
    | some pr => some pr
    | none => if matchesWord base w then some ([], w) else none

/-- A string the loop may return as the extracted prefix: a clitic from the
fixed sets, with or without its diacritics. -/
def isCandidate (p : List Char) : Prop :=
  p ∈ ALL_CLITICS ∨ ∃ q ∈ ALL_CLITICS, p = stripTashkeel q

lemma stripTashkeel_append (a b : List Char) :
    stripTashkeel (a ++ b) = stripTashkeel a ++ stripTashkeel b := by
  simp [stripTashkeel]

lemma stripTashkeel_idem (t : List Char) :
    stripTashkeel (stripTashkeel t) = stripTashkeel t := by
  apply List.filter_eq_self.mpr
  intro a ha
  exact (List.mem_filter.mp ha).2

lemma notTashkeel_of_mem_strip {c : Char} {t : List Char}
    (h : c ∈ stripTashkeel t) : c ∉ TASHKEEL_M := by
  have := (List.mem_filter.mp h).2
  simpa using this

lemma isPrefixOf_iff {p w : List Char} :
    p.isPrefixOf w = true ↔ ∃ r, w = p ++ r := by
  rw [List.isPrefixOf_iff_prefix]
  constructor
  · rintro ⟨t, ht⟩
    exact ⟨t, ht.symm⟩
  · rintro ⟨r, hr⟩
    exact ⟨r, hr.symm⟩

lemma tryOne_eq_some {base w q p r : List Char}
    (h : tryOne base w q = some (p, r)) :
    ((p = q ∧ q.isPrefixOf w = true) ∨
      (p = stripTashkeel q ∧ q.isPrefixOf w = false)) ∧
    w = p ++ r ∧ stripTashkeel r = stripTashkeel base := by
  simp only [tryOne] at h
  split_ifs at h with hpre hraw hchk hchk2
  · rw [Option.some.injEq, Prod.mk.injEq] at h
    obtain ⟨hp, hr⟩ := h
    subst hp hr
    obtain ⟨t, ht⟩ := isPrefixOf_iff.mp hraw
    have hdrop : w.drop q.length = t := by rw [ht, List.drop_left]
    exact ⟨Or.inl ⟨rfl, hraw⟩, by rw [hdrop]; exact ht, hchk⟩
  · rw [Option.some.injEq, Prod.mk.injEq] at h
    obtain ⟨hp, hr⟩ := h
    subst hp hr
    have hclean : (stripTashkeel q).isPrefixOf w = true := by
      rcases Bool.or_eq_true_iff.mp hpre with h | h
      · exact absurd h hraw
      · exact h
    obtain ⟨t, ht⟩ := isPrefixOf_iff.mp hclean
    have hdrop : w.drop (stripTashkeel q).length = t := by rw [ht, List.drop_left]
    refine ⟨Or.inr ⟨rfl, ?_⟩, by rw [hdrop]; exact ht, hchk2⟩
    rw [Bool.not_eq_true] at hraw
    exact hraw

/-- The loop body fires on a candidate whose raw form splits `w` with a
remainder matching the base word up to diacritics. -/
lemma tryOne_raw {base w q r' : List Char} (hw : w = q ++ r')
    (hs : stripTashkeel r' = stripTashkeel base) :
    tryOne base w q = some (q, r') := by
  have hq : q.isPrefixOf w = true := isPrefixOf_iff.mpr ⟨r', hw⟩
  have hdrop : w.drop q.length = r' := by rw [hw, List.drop_left]
  simp only [tryOne, hq, Bool.true_or, if_true, hdrop, hs, if_pos rfl]

/-- If both `q` and its diacritic-free form are prefixes of `w` and the
clean split is valid, then the raw split is valid as well: the characters
between the two prefixes are all tashkeel. -/
lemma raw_valid_of_clean_valid {base w q r' : List Char}
    (hq : q.isPrefixOf w = true) (hw : w = stripTashkeel q ++ r')
    (hs : stripTashkeel r' = stripTashkeel base) :
    stripTashkeel (w.drop q.length) = stripTashkeel base := by
  obtain ⟨rq, hrq⟩ := isPrefixOf_iff.mp hq
  have hdrop : w.drop q.length = rq := by rw [hrq, List.drop_left]
  rw [hdrop]
  have hlen : (stripTashkeel q).length ≤ q.length := List.length_filter_le _ _
  have hpre : stripTashkeel q <+: q :=
    List.prefix_of_prefix_length_le ⟨r', hw.symm⟩ ⟨rq, hrq.symm⟩ hlen
  obtain ⟨s, hsplit⟩ := hpre
  have hstrips : stripTashkeel s = [] := by
    have h1 : stripTashkeel q = stripTashkeel (stripTashkeel q) ++ stripTashkeel s := by
      conv_lhs => rw [← hsplit]
      exact stripTashkeel_append _ _
    rw [stripTashkeel_idem] at h1
    have h2 := congrArg List.length h1
    rw [List.length_append] at h2
    exact List.length_eq_zero.mp (by omega)
  have hr' : r' = s ++ rq := by
    have h2 : stripTashkeel q ++ r' = stripTashkeel q ++ (s ++ rq) := by
      rw [← hw, ← List.append_assoc, hsplit, hrq]
    exact List.append_cancel_left h2
  rw [hr', stripTashkeel_append, hstrips, List.nil_append] at hs
  exact hs

/-- The loop body fires on a candidate whose diacritic-free form splits `w`
with a remainder matching the base word up to diacritics. -/
lemma tryOne_clean {base w q r' : List Char} (hw : w = stripTashkeel q ++ r')
    (hs : stripTashkeel r' = stripTashkeel base) :
    ∃ pr, tryOne base w q = some pr := by
  by_cases hq : q.isPrefixOf w = true
  · obtain ⟨rq, hrq⟩ := isPrefixOf_iff.mp hq
    have hvalid := raw_valid_of_clean_valid hq hw hs
    have hdrop : w.drop q.length = rq := by rw [hrq, List.drop_left]
    rw [hdrop] at hvalid
    exact ⟨(q, rq), tryOne_raw hrq hvalid⟩
  · rw [Bool.not_eq_true] at hq
    have hc : (stripTashkeel q).isPrefixOf w = true := isPrefixOf_iff.mpr ⟨r', hw⟩
    have hdrop : w.drop (stripTashkeel q).length = r' := by rw [hw, List.drop_left]
    refine ⟨(stripTashkeel q, r'), ?_⟩
    simp only [tryOne, hq, hc, Bool.false_or, if_true, Bool.false_eq_true, if_false,
      hdrop, hs, if_pos rfl]

lemma extractLoop_none {base w : List Char} :
    ∀ {L : List (List Char)}, extractLoop base w L = none →
      ∀ q ∈ L, tryOne base w q = none := by
  intro L
  induction L with
  | nil => intro _ q hq; cases hq
  | cons e rest ih =>
    intro h q hq
    unfold extractLoop at h
    rcases he : tryOne base w e with _ | pr
    · rw [he] at h
      rcases List.mem_cons.mp hq with rfl | hq'
      · exact he
      · exact ih h q hq'
    · rw [he] at h
      cases h

lemma extractLoop_some {base w p r : List Char} :
    ∀ {L : List (List Char)}, extractLoop base w L = some (p, r) →
      ∃ L1 q L2, L = L1 ++ q :: L2 ∧ (∀ e ∈ L1, tryOne base w e = none) ∧
        tryOne base w q = some (p, r) := by
  intro L
  induction L with
  | nil => intro h; cases h
  | cons e rest ih =>
    intro h
    unfold extractLoop at h
    rcases he : tryOne base w e with _ | pr
    · rw [he] at h
      obtain ⟨L1, q, L2, hdec, hnone, hq⟩ := ih h
      refine ⟨e :: L1, q, L2, by rw [hdec]; rfl, ?_, hq⟩
      intro x hx
      rcases List.mem_cons.mp hx with rfl | hx'
      · exact he
      · exact hnone x hx'
    · rw [he] at h
      rw [Option.some.injEq] at h
      refine ⟨[], e, rest, rfl, ?_, ?_⟩
      · intro x hx
        cases hx
      · rw [he, h]

lemma mem_sorted_iff {p : List Char} : p ∈ ALL_CLITICS_SORTED ↔ p ∈ ALL_CLITICS :=
  allClitics_perm_sorted.mem_iff

/-- Finite check over the clitic tables: no clitic `pp` of at most the
length of a clitic `q` properly extends `q`'s diacritic-free form by
tashkeel marks alone, except `q` itself. -/
lemma no_short_tashkeel_extension :
    ∀ q ∈ ALL_CLITICS_SORTED, ∀ pp ∈ ALL_CLITICS_SORTED, q ≠ pp →
      pp.length ≤ q.length → stripTashkeel q <+: pp → stripTashkeel q ≠ pp →
      ¬ stripTashkeel (pp.drop (stripTashkeel q).length) = [] := by decide

/-- C9: for every candidate word accepted by `matches`, `extract_prefix`
returns a decomposition of the word whose prefix is drawn from the clitic
tables (with or without diacritics) and whose remainder equals the
canonical word up to diacritics, and every other such decomposition has a
prefix no longer than the returned one (in particular a combined clitic is
preferred over a single-letter one whenever both would match); the empty
prefix is returned exactly when no clitic decomposition exists. -/
theorem extract_clitic_longest (base w : List Char)
    (hm : matchesWord base w = true) :
    ∃ p r, extract_clitic base w = some (p, r) ∧ w = p ++ r ∧
      (p = [] ∨ (isCandidate p ∧ stripTashkeel r = stripTashkeel base)) ∧
      ∀ p' r', isCandidate p' → w = p' ++ r' →
        stripTashkeel r' = stripTashkeel base → p'.length ≤ p.length := by
  unfold extract_clitic
  rw [hm]
  rcases hloop : extractLoop base w ALL_CLITICS_SORTED with _ | ⟨p, r⟩
  · refine ⟨[], w, rfl, rfl, Or.inl rfl, ?_⟩
    intro p' r' hcand hw' hs'
    exfalso
    rcases hcand with hraw | ⟨q2, hq2, rfl⟩
    · have htryp' : tryOne base w p' = some (p', r') := tryOne_raw hw' hs'
      have h1 := extractLoop_none hloop p' (mem_sorted_iff.mpr hraw)
      rw [h1] at htryp'
      exact Option.noConfusion htryp'
    · obtain ⟨pr, hpr⟩ := tryOne_clean hw' hs'
      have h1 := extractLoop_none hloop q2 (mem_sorted_iff.mpr hq2)
      rw [h1] at hpr
      exact Option.noConfusion hpr
  · obtain ⟨L1, q, q2rest, hdec, hnone, htry⟩ := extractLoop_some hloop
    obtain ⟨hdisj, hwpr, hstrip⟩ := tryOne_eq_some htry
    have hqmem : q ∈ ALL_CLITICS_SORTED := by
      rw [hdec]
      exact List.mem_append_right _ (List.mem_cons_self _ _)
    refine ⟨p, r, rfl, hwpr, Or.inr ⟨?_, hstrip⟩, ?_⟩
    · rcases hdisj with ⟨hpq, _⟩ | ⟨hpq, _⟩
      · rw [hpq]
        exact Or.inl (mem_sorted_iff.mp hqmem)
      · rw [hpq]
        exact Or.inr ⟨q, mem_sorted_iff.mp hqmem, rfl⟩
    · intro p' r' hcand hw' hs'
      by_contra hge
      push_neg at hge
      have hpp' : p <+: p' :=
        List.prefix_of_prefix_length_le ⟨r, hwpr.symm⟩ ⟨r', hw'.symm⟩ (Nat.le_of_lt hge)
      obtain ⟨mid, hmid⟩ := hpp'
      have hr : r = mid ++ r' := by
        have h1 : p ++ r = p ++ (mid ++ r') := by
          rw [← List.append_assoc, hmid, ← hwpr, hw']
        exact List.append_cancel_left h1
      have hsmid : stripTashkeel mid = [] := by
        have h1 : stripTashkeel r = stripTashkeel mid ++ stripTashkeel r' := by
          rw [hr, stripTashkeel_append]
        rw [hstrip, hs'] at h1
        have h2 := congrArg List.length h1
        rw [List.length_append] at h2
        exact List.length_eq_zero.mp (by omega)
      have hmidne : mid ≠ [] := by
        intro hnil
        rw [hnil, List.append_nil] at hmid
        rw [hmid] at hge
        omega
      have hmidtash : ∀ c ∈ mid, c ∈ TASHKEEL_M := by
        intro c hc
        have h1 := List.filter_eq_nil_iff.mp hsmid c hc
        simpa using h1
      have hp'raw : p' ∈ ALL_CLITICS_SORTED := by
        rcases hcand with h | ⟨q2, hq2, rfl⟩
        · exact mem_sorted_iff.mpr h
        · exfalso
          obtain ⟨c, hc⟩ := List.exists_mem_of_ne_nil mid hmidne
          have hcmem : c ∈ stripTashkeel q2 := by
            rw [← hmid]
            exact List.mem_append_right _ hc
          exact notTashkeel_of_mem_strip hcmem (hmidtash c hc)
      have htryp' : tryOne base w p' = some (p', r') := tryOne_raw hw' hs'
      have hqcase : p' = q → False := by
        intro hqeq
        rcases hdisj with ⟨hpq, _⟩ | ⟨hpq, hqpre⟩
        · rw [hpq, ← hqeq] at hge
          omega
        · have hpre : p'.isPrefixOf w = true := isPrefixOf_iff.mpr ⟨r', hw'⟩
          rw [hqeq] at hpre
          rw [hpre] at hqpre
          exact Bool.noConfusion hqpre
      have hp'mem : p' ∈ L1 ++ q :: q2rest := by
        rw [← hdec]
        exact hp'raw
      rcases List.mem_append.mp hp'mem with hin1 | hin2
      · have h1 := hnone p' hin1
        rw [h1] at htryp'
        exact Option.noConfusion htryp'
      · rcases List.mem_cons.mp hin2 with hp'q | hin2'
        · exact hqcase hp'q
        · have hsorted := allClitics_sorted_by_length
          rw [hdec] at hsorted
          have hp'len : p'.length ≤ q.length := by
            have h1 := (List.pairwise_append.mp hsorted).2.1
            exact (List.pairwise_cons.mp h1).1 p' hin2'
          by_cases hqp' : q = p'
          · exact hqcase hqp'.symm
          · rcases hdisj with ⟨hpq, _⟩ | ⟨hpq, _⟩
            · rw [hpq, ← hpq] at hge
              rw [hpq] at hge
              omega
            · refine no_short_tashkeel_extension q hqmem p' hp'raw hqp' hp'len ?_ ?_ ?_
              · rw [← hpq]
                exact ⟨mid, hmid⟩
              · rw [← hpq]
                intro heq
                rw [heq] at hge
                omega
              · rw [← hpq]
                have h2 : p'.drop p.length = mid := by
                  rw [← hmid, List.drop_left]
                rw [h2]
                exact hsmid

/-- Witness for C9: the word "بالله" against the canonical word "الله". -/
theorem extract_clitic_longest_witness :
    matchesWord ['ا', 'ل', 'ل', 'ه'] ['ب', 'ا', 'ل', 'ل', 'ه'] = true ∧
    (∃ p r, extract_clitic ['ا', 'ل', 'ل', 'ه'] ['ب', 'ا', 'ل', 'ل', 'ه'] = some (p, r) ∧
      ['ب', 'ا', 'ل', 'ل', 'ه'] = p ++ r ∧
      (p = [] ∨ (isCandidate p ∧
        stripTashkeel r = stripTashkeel ['ا', 'ل', 'ل', 'ه'])) ∧
      ∀ p' r', isCandidate p' → ['ب', 'ا', 'ل', 'ل', 'ه'] = p' ++ r' →
        stripTashkeel r' = stripTashkeel ['ا', 'ل', 'ل', 'ه'] → p'.length ≤ p.length) :=
  ⟨by decide, extract_clitic_longest ['ا', 'ل', 'ل', 'ه'] ['ب', 'ا', 'ل', 'ل', 'ه'] (by decide)⟩

end EntityMatcher

end Mizan
